/-
  A verification development for `verify_metafiles.py`, a script that audits a
  directory tree for the Unity two-file convention: every asset file must have a
  companion `<name>.meta` file and every metafile must correspond to an existing
  asset, with results reported as TeamCity service messages.

  The Python program is shallowly embedded: `pathlib` paths become a structure
  of parent components plus a final name, the filesystem becomes an inductive
  tree, `datetime` values become integer millisecond counts, fallible calls
  (`Path.with_suffix` raising `ValueError`, `Path.iterdir` raising `OSError`)
  return `Option`/`Except`.
-/
import Mathlib

namespace VerifyMetafiles

/-! ## Strings and `pathlib` path components -/

/-- The dot character, code point 46. -/
def dotChar : Char := Char.ofNat 46

/-- The POSIX path separator, code point 47.  (`pathlib`'s posix flavour has no
`altsep`, so only this character is structurally significant in names.) -/
def sepChar : Char := Char.ofNat 47

/-- The single-quote character, code point 39, used as the value delimiter of
the TeamCity service-message syntax. -/
def squote : Char := Char.ofNat 39

/-- The single-quote character as a one-character string. -/
def squoteStr : String := String.singleton squote

/-- Python `str.rfind(c)`: the highest index at which `c` occurs in `s`,
or `-1` when `c` does not occur. -/
def pyRfind (s : String) (c : Char) : Int :=
  match s.data.reverse.findIdx? (fun x => x == c) with
  | none => -1
  | some j => (s.length : Int) - 1 - (j : Int)

/-- `pathlib.PurePath.suffix` as computed from the final component:
`i = name.rfind('.'); return name[i:] if 0 < i < len(name) - 1 else ''`. -/
def pySuffix (name : String) : String :=
  if 0 < pyRfind name dotChar ∧ pyRfind name dotChar < (name.length : Int) - 1
  then String.mk (name.data.drop (pyRfind name dotChar).toNat) else ""

/-- A `pathlib.Path` as used by the script: the chain of directory components
below the scanned root, plus the final component `name`.  Two paths produced in
one run are equal exactly when the component lists are equal, which models
`pathlib`'s by-value equality and hashing for paths sharing the root prefix. -/
structure PyPath where
  dirs : List String
  name : String
deriving DecidableEq

/-- `Path.suffix`. -/
def PyPath.suffix (p : PyPath) : String := pySuffix p.name

/-- `pathlib.PurePath.with_suffix(s)`: replace (or, for an empty current
suffix, append) the suffix of the final component.  `none` models the
`ValueError` raised when `s` contains a separator, when `s` is nonempty but
does not start with a dot or equals a bare dot, or when the path has an empty
final component.  The slice `name[:-len(old)]` is `take (length - len old)`. -/
def PyPath.withSuffix (p : PyPath) (s : String) : Option PyPath :=
  if sepChar ∈ s.data then none
  else if (s ≠ "" ∧ s.data.head? ≠ some dotChar) ∨ s = "." then none
  else if p.name = "" then none
  else
    let old := pySuffix p.name
    let newName : String :=
      if old = "" then p.name ++ s
      else String.mk (p.name.data.take (p.name.length - old.length)) ++ s
    some ⟨p.dirs, newName⟩

/-- `str(path)` of a path relative to the scanned root (posix rendering,
components joined by the separator). -/
def path_str (p : PyPath) : String :=
  String.intercalate (String.singleton sepChar) (p.dirs ++ [p.name])

/-- `is_dangling_metafile(metafile, assets)`:
`metafile.with_suffix("") not in assets`. -/
def is_dangling_metafile (metafile : PyPath) (assets : Finset PyPath) : Option Bool :=
  (metafile.withSuffix ("")).map (fun q => decide (q ∉ assets))

/-- `is_missing_metafile(asset, metafiles)`:
`asset.with_suffix(asset.suffix + ".meta") not in metafiles`. -/
def is_missing_metafile (asset : PyPath) (metafiles : Finset PyPath) : Option Bool :=
  (asset.withSuffix (asset.suffix ++ ".meta")).map (fun q => decide (q ∉ metafiles))

/-! ## The filesystem tree

A directory tree as seen through `Path.iterdir` / `Path.is_file` /
`Path.is_dir`: every entry is either a regular file or a directory with a list
of child entries.  Paths handed to the predicates are relative to the scanned
root (all paths of one run share the root prefix, so equality and set
membership are unaffected by dropping it). -/

inductive FSTree where
  | file (name : String) : FSTree
  | dir (name : String) (children : List FSTree) : FSTree

/-- `Path.name` of an entry. -/
def FSTree.name : FSTree → String
  | .file n => n
  | .dir n _ => n

/-- `Path.is_dir()` of an entry (and `Path.is_file()` is its negation). -/
def FSTree.isDir : FSTree → Bool
  | .file _ => false
  | .dir _ _ => true

/-- `Path.iterdir()` of an entry (empty for a file). -/
def FSTree.children : FSTree → List FSTree
  | .file _ => []
  | .dir _ cs => cs

/-! ## The tree collector `_find_elems`

`_find_elems_rec(p, acc)` lists the children of directory `p`, keeps those not
excluded from traversal, unions into `acc` the kept children not excluded from
the result, and then loops over the kept children, recursing into each
directory.  `find_elems_rec` is that function (the node `t` stands for `p`,
`pfx` is `p`'s path relative to the root); `find_elems_loop` is its
`for p in paths:` loop.  The predicates receive the child's path and its
`is_dir()` answer. -/

mutual
def find_elems_rec (trans res : PyPath → Bool → Bool) (t : FSTree) (pfx : List String)
    (acc : Finset PyPath) : Finset PyPath :=
  let paths := t.children.filter (fun pc => !trans ⟨pfx, pc.name⟩ pc.isDir)
  let acc1 := acc ∪
    ((paths.filter (fun pc => !res ⟨pfx, pc.name⟩ pc.isDir)).map
      (fun pc => (⟨pfx, pc.name⟩ : PyPath))).toFinset
  find_elems_loop trans res paths pfx acc1
termination_by sizeOf t
decreasing_by
  have hfil : ∀ (f : FSTree → Bool) (l : List FSTree), sizeOf (l.filter f) ≤ sizeOf l := by
    intro f l
    induction l with
    | nil => simp
    | cons a l ih =>
        rw [List.filter_cons]
        by_cases h : f a <;> simp [h] <;> omega
  have hch : sizeOf t.children < sizeOf t := by
    cases t with
    | file n =>
        have h1 : 1 ≤ sizeOf n := by cases n; simp
        simp [FSTree.children]
        omega
    | dir n cs => simp [FSTree.children]
  exact lt_of_le_of_lt (hfil _ _) hch

def find_elems_loop (trans res : PyPath → Bool → Bool) (l : List FSTree) (pfx : List String)
    (acc : Finset PyPath) : Finset PyPath :=
  match l with
  | [] => acc
  | p :: rest =>
      if p.isDir then
        find_elems_loop trans res rest pfx (find_elems_rec trans res p (pfx ++ [p.name]) acc)
      else
        find_elems_loop trans res rest pfx acc
termination_by sizeOf l
decreasing_by
  all_goals simp
  all_goals omega
end

/-- `_find_elems(root, is_excluded_transverse, is_excluded_result=None)`:
when no result predicate is supplied, `lambda _: False` is used, and the
recursion starts at the root with an empty accumulator. -/
def find_elems (trans : PyPath → Bool → Bool) (res : Option (PyPath → Bool → Bool))
    (root : FSTree) : Finset PyPath :=
  let res1 : PyPath → Bool → Bool :=
    match res with
    | none => fun _ _ => false
    | some f => f
  find_elems_rec trans res1 root [] ∅

/-- `gather_metafile_paths._is_excluded`:
`if p.is_file(): return p.suffix != ".meta"` else `return p.name in excluded_dirs`. -/
def meta_is_excluded (excluded_dirs : Finset String) (p : PyPath) (isDir : Bool) : Bool :=
  if isDir = false then decide (p.suffix ≠ ".meta") else decide (p.name ∈ excluded_dirs)

/-- `gather_metafile_paths._is_not_metafile`: `return p.is_dir()`. -/
def is_not_metafile (_p : PyPath) (isDir : Bool) : Bool := isDir

/-- `gather_metafile_paths(root, excluded_dirs)`. -/
def gather_metafile_paths (root : FSTree) (excluded_dirs : Finset String) : Finset PyPath :=
  find_elems (meta_is_excluded excluded_dirs) (some is_not_metafile) root

/-- `gather_asset_paths._is_excluded`:
`filter = excluded_directories if p.is_dir() else excluded_files;`
`return p.name in filter or p.suffix == ".meta"`. -/
def asset_is_excluded (excluded_files excluded_directories : Finset String)
    (p : PyPath) (isDir : Bool) : Bool :=
  decide (p.name ∈ (if isDir then excluded_directories else excluded_files)) ||
    decide (p.suffix = ".meta")

/-- `gather_asset_paths(root, excluded_files, excluded_directories)` (no
result predicate is passed, so every kept entry, directory or file, lands in
the result). -/
def gather_asset_paths (root : FSTree) (excluded_files excluded_directories : Finset String) :
    Finset PyPath :=
  find_elems (asset_is_excluded excluded_files excluded_directories) none root

/-! ## Declarative predicates on trees -/

/-- `Collected trans res pfx t p` says: starting from the directory node `t`
(whose path relative to the root is `pfx`), the recursive collector reaches
and keeps the entry at path `p` — either `p` is a kept, non-result-excluded
child of `t`, or `p` is collected inside a kept directory child of `t`. -/
inductive Collected (trans res : PyPath → Bool → Bool) :
    List String → FSTree → PyPath → Prop where
  | here {pfx : List String} {t c : FSTree} :
      c ∈ t.children →
      trans ⟨pfx, c.name⟩ c.isDir = false →
      res ⟨pfx, c.name⟩ c.isDir = false →
      Collected trans res pfx t ⟨pfx, c.name⟩
  | deeper {pfx : List String} {t c : FSTree} {p : PyPath} :
      c ∈ t.children →
      trans ⟨pfx, c.name⟩ c.isDir = false →
      c.isDir = true →
      Collected trans res (pfx ++ [c.name]) c p →
      Collected trans res pfx t p

/-- The asset predicate of the data model, stated declaratively from the
spec's words: an asset-set entry is an entry of the tree (file or directory)
whose name is not in the respective exclusion set (`excluded_files` for files,
`excluded_directories` for directories) and whose suffix is not `".meta"`,
and each of whose ancestor directories below the root likewise has a name not
in `excluded_directories` and a suffix other than `".meta"`. -/
inductive AssetEntry (ef ed : Finset String) : List FSTree → PyPath → Prop where
  | here {cs : List FSTree} {c : FSTree} :
      c ∈ cs →
      c.name ∉ (if c.isDir = true then ed else ef) →
      pySuffix c.name ≠ ".meta" →
      AssetEntry ef ed cs ⟨[], c.name⟩
  | under {cs : List FSTree} {c : FSTree} {dirs : List String} {n : String} :
      c ∈ cs →
      c.isDir = true →
      c.name ∉ ed →
      pySuffix c.name ≠ ".meta" →
      AssetEntry ef ed c.children ⟨dirs, n⟩ →
      AssetEntry ef ed cs ⟨c.name :: dirs, n⟩

/-- `HasDir cs q`: descending from the sibling list `cs` along the (nonempty)
component list `q` ends at a directory node. -/
inductive HasDir : List FSTree → List String → Prop where
  | here {cs : List FSTree} {t : FSTree} :
      t ∈ cs → t.isDir = true → HasDir cs [t.name]
  | there {cs : List FSTree} {t : FSTree} {rest : List String} :
      t ∈ cs → t.isDir = true → HasDir t.children rest → HasDir cs (t.name :: rest)

/-- Real-filesystem shape invariant: within any one directory, sibling entries
have pairwise distinct names (an OS directory cannot hold two entries with the
same name). -/
inductive WFForest : List FSTree → Prop where
  | mk {cs : List FSTree} :
      (cs.map FSTree.name).Nodup →
      (∀ c, c ∈ cs → WFForest c.children) →
      WFForest cs

/-- A name an operating system can actually return from a directory listing:
nonempty and free of the path separator. -/
def valid_name (n : String) : Bool :=
  decide (n ≠ "") && decide (sepChar ∉ n.data)

/-- Every entry name in the forest is a `valid_name`. -/
inductive ValidForest : List FSTree → Prop where
  | mk {cs : List FSTree} :
      (∀ c, c ∈ cs → valid_name c.name = true) →
      (∀ c, c ∈ cs → ValidForest c.children) →
      ValidForest cs

/-! ## The reporting layer -/

/-- `TeamCityMsg`: an event name plus an ordered mapping of properties. -/
structure TeamCityMsg where
  text : String
  properties : List (String × String)
deriving DecidableEq

/-- `TeamCityMsg._msg`:
`props = [f"{key}='{value}'" for key, value in properties.items()]`,
`content = " ".join([text] + props)`, and the line is
`f"##teamcity[{content}]"`.  The value is inserted verbatim between the two
single quotes. -/
def TeamCityMsg.msg (m : TeamCityMsg) : String :=
  "##teamcity[" ++
    String.intercalate (" ")
      (m.text :: m.properties.map (fun kv => kv.1 ++ "=" ++ squoteStr ++ kv.2 ++ squoteStr))
    ++ "]"

/-- The `Test` context manager: a name plus the `_start_time` field.  Wall
clock instants are integer millisecond counts. -/
structure Test where
  name : String
  start_time : Int
deriving DecidableEq

/-- Constructing `Test(name=...)`: the dataclass field default
`_start_time: datetime = datetime.now()` was evaluated once, when the class
body executed at module-load time (`class_def_time`), so every instance built
without an explicit argument carries that one shared timestamp. -/
def Test.make (class_def_time : Int) (name : String) : Test :=
  ⟨name, class_def_time⟩

/-- `Test.__enter__`, entered at instant `now`: publishes `testStarted` and
returns `self` unchanged — in particular it does not record `now` anywhere. -/
def Test.enter (t : Test) (_now : Int) : Test × TeamCityMsg :=
  (t, ⟨"testStarted", [("name", t.name), ("captureStandardOutput", "false")]⟩)

/-- `Test.__exit__`, run at instant `now`: publishes `testFinished` whose
`duration` property is `(datetime.now() - self._start_time)` divided by one
millisecond, rendered as a decimal string. -/
def Test.exit (t : Test) (now : Int) : TeamCityMsg :=
  ⟨"testFinished", [("name", t.name), ("duration", toString (now - t.start_time))]⟩

/-- `Test.fail(message, details)`. -/
def Test.fail (t : Test) (message details : String) : TeamCityMsg :=
  ⟨"testFailed", [("name", t.name), ("message", message), ("details", details)]⟩

/-- `Test.ignore(comment)`. -/
def Test.ignore (t : Test) (comment : String) : TeamCityMsg :=
  ⟨"testIgnored", [("name", t.name), ("message", comment)]⟩

/-! ## A whole run, with filesystem errors

For the exit-status behaviour the run is modelled end to end: `raises q = true`
means `Path.iterdir()` raises an `OSError` (e.g. permission denied) when
listing the directory at relative path `q`; the error value is propagated by
every caller because the script installs no exception handler anywhere. -/

/-- The structured events of the report stream (the data carried by the
`TeamCityMsg`s the runners publish). -/
inductive TCEvent where
  | suiteStarted (name : String)
  | suiteFinished (name : String)
  | testStarted (name : String)
  | testFinished (name : String)
  | testFailed (name message details : String)
  | testIgnored (name message : String)
deriving DecidableEq

mutual
def find_elems_rec_e (raises : List String → Bool) (trans res : PyPath → Bool → Bool)
    (t : FSTree) (pfx : List String) (acc : Finset PyPath) :
    Except Unit (Finset PyPath) :=
  if raises pfx then Except.error ()
  else
    let paths := t.children.filter (fun pc => !trans ⟨pfx, pc.name⟩ pc.isDir)
    let acc1 := acc ∪
      ((paths.filter (fun pc => !res ⟨pfx, pc.name⟩ pc.isDir)).map
        (fun pc => (⟨pfx, pc.name⟩ : PyPath))).toFinset
    find_elems_loop_e raises trans res paths pfx acc1
termination_by sizeOf t
decreasing_by
  have hfil : ∀ (f : FSTree → Bool) (l : List FSTree), sizeOf (l.filter f) ≤ sizeOf l := by
    intro f l
    induction l with
    | nil => simp
    | cons a l ih =>
        rw [List.filter_cons]
        by_cases h : f a <;> simp [h] <;> omega
  have hch : sizeOf t.children < sizeOf t := by
    cases t with
    | file n =>
        have h1 : 1 ≤ sizeOf n := by cases n; simp
        simp [FSTree.children]
        omega
    | dir n cs => simp [FSTree.children]
  exact lt_of_le_of_lt (hfil _ _) hch

def find_elems_loop_e (raises : List String → Bool) (trans res : PyPath → Bool → Bool)
    (l : List FSTree) (pfx : List String) (acc : Finset PyPath) :
    Except Unit (Finset PyPath) :=
  match l with
  | [] => Except.ok acc
  | p :: rest =>
      if p.isDir then
        match find_elems_rec_e raises trans res p (pfx ++ [p.name]) acc with
        | Except.error e => Except.error e
        | Except.ok acc2 => find_elems_loop_e raises trans res rest pfx acc2
      else
        find_elems_loop_e raises trans res rest pfx acc
termination_by sizeOf l
decreasing_by
  all_goals simp
  all_goals omega
end

/-- `_find_elems` under the fallible-listing model. -/
def find_elems_e (raises : List String → Bool) (trans : PyPath → Bool → Bool)
    (res : Option (PyPath → Bool → Bool)) (root : FSTree) :
    Except Unit (Finset PyPath) :=
  let res1 : PyPath → Bool → Bool :=
    match res with
    | none => fun _ _ => false
    | some f => f
  find_elems_rec_e raises trans res1 root [] ∅

/-- `gather_metafile_paths` under the fallible-listing model. -/
def gather_metafile_paths_e (raises : List String → Bool) (root : FSTree)
    (excluded_dirs : Finset String) : Except Unit (Finset PyPath) :=
  find_elems_e raises (meta_is_excluded excluded_dirs) (some is_not_metafile) root

/-- `gather_asset_paths` under the fallible-listing model. -/
def gather_asset_paths_e (raises : List String → Bool) (root : FSTree)
    (excluded_files excluded_directories : Finset String) : Except Unit (Finset PyPath) :=
  find_elems_e raises (asset_is_excluded excluded_files excluded_directories) none root

/-- The events of one `with Test(name=...) as test:` block of a runner: the
scope emits `testStarted`, the body emits `testFailed` when the consistency
check answered true, and the scope exit emits `testFinished`. -/
def test_events (name : String) (failed : Bool) (message details : String) : List TCEvent :=
  [TCEvent.testStarted name] ++
    (if failed then [TCEvent.testFailed name message details] else []) ++
    [TCEvent.testFinished name]

/-- The `for asset_path in assets:` loop of `verify_missing_metafiles`.  The
checked set iterates in the order `assets`; a `ValueError` out of
`with_suffix` (impossible for names produced by a real listing) would abort
the loop and propagate. -/
def verify_missing_loop (assets : List PyPath) (metafiles : Finset PyPath) :
    Except Unit (List TCEvent) :=
  match assets with
  | [] => Except.ok []
  | a :: rest =>
      match is_missing_metafile a metafiles with
      | none => Except.error ()
      | some b =>
          match verify_missing_loop rest metafiles with
          | Except.error e => Except.error e
          | Except.ok evs =>
              Except.ok (test_events (path_str a) b ("No .metafile")
                ("Metafile " ++ path_str a ++ ".meta not found.") ++ evs)

/-- The `for metafile_path in metafiles:` loop of `verify_dangling_metafiles`. -/
def verify_dangling_loop (metafiles : List PyPath) (assets : Finset PyPath) :
    Except Unit (List TCEvent) :=
  match metafiles with
  | [] => Except.ok []
  | m :: rest =>
      match is_dangling_metafile m assets with
      | none => Except.error ()
      | some b =>
          match verify_dangling_loop rest assets with
          | Except.error e => Except.error e
          | Except.ok evs =>
              Except.ok (test_events (path_str m) b ("No asset")
                ("No file corresponding with " ++ path_str m ++ ".") ++ evs)

/-- `verify_missing_metafiles`, including the `@TestSuite` decorator's suite
bracketing. -/
def verify_missing_metafiles_e (assets : List PyPath) (metafiles : Finset PyPath) :
    Except Unit (List TCEvent) :=
  match verify_missing_loop assets metafiles with
  | Except.error e => Except.error e
  | Except.ok evs =>
      Except.ok ([TCEvent.suiteStarted ("missing_metafiles")] ++ evs ++
        [TCEvent.suiteFinished ("missing_metafiles")])

/-- `verify_dangling_metafiles`, including the suite bracketing. -/
def verify_dangling_metafiles_e (metafiles : List PyPath) (assets : Finset PyPath) :
    Except Unit (List TCEvent) :=
  match verify_dangling_loop metafiles assets with
  | Except.error e => Except.error e
  | Except.ok evs =>
      Except.ok ([TCEvent.suiteStarted ("dangling_metafiles")] ++ evs ++
        [TCEvent.suiteFinished ("dangling_metafiles")])

/-- The `if __name__ == "__main__":` block after argument parsing: gather the
asset set, gather the metafile set, run both verifications.  `enum` supplies
the (unspecified) iteration order Python uses for a `set`; an `Except.error`
anywhere short-circuits, because no caller handles exceptions. -/
def main_run (raises : List String → Bool) (root : FSTree)
    (excluded_files excluded_dirs : Finset String)
    (enum : Finset PyPath → List PyPath) : Except Unit (List TCEvent) :=
  match gather_asset_paths_e raises root excluded_files excluded_dirs with
  | Except.error e => Except.error e
  | Except.ok assets =>
      match gather_metafile_paths_e raises root excluded_dirs with
      | Except.error e => Except.error e
      | Except.ok metafiles =>
          match verify_missing_metafiles_e (enum assets) metafiles with
          | Except.error e => Except.error e
          | Except.ok evs1 =>
              match verify_dangling_metafiles_e (enum metafiles) assets with
              | Except.error e => Except.error e
              | Except.ok evs2 => Except.ok (evs1 ++ evs2)

/-- Modelled from the spec (§6 exit behaviour): the interpreter exits with
status 0 when the script runs to completion and with a non-zero status (1)
when an uncaught exception aborts it; the script itself never calls
`sys.exit` and installs no handler. -/
def exit_code {E A : Type} : Except E A → Nat
  | Except.ok _ => 0
  | Except.error _ => 1

/-- The number of `testFailed` events in a report stream. -/
def count_failed (evs : List TCEvent) : Nat :=
  (evs.filter (fun e =>
    match e with
    | TCEvent.testFailed _ _ _ => true
    | _ => false)).length

/-! # Theorems -/

/-! ## String and suffix facts -/

theorem findIdx?_some_get {α : Type} (p : α → Bool) :
    ∀ (l : List α) (i j : Nat), List.findIdx? p l i = some j →
      i ≤ j ∧ ∃ h : j - i < l.length, p (l.get ⟨j - i, h⟩) = true := by
  intro l
  induction l with
  | nil => intro i j h; rw [List.findIdx?_nil] at h; cases h
  | cons a l ih =>
      intro i j h
      rw [List.findIdx?_cons] at h
      by_cases hpa : p a = true
      · rw [if_pos hpa] at h
        injection h with hji
        subst hji
        refine ⟨le_refl _, ⟨by simp, ?_⟩⟩
        simp only [List.get_eq_getElem, Nat.sub_self, List.getElem_cons_zero]
        exact hpa
      · rw [if_neg hpa] at h
        obtain ⟨hij, hlt, hp⟩ := ih (i + 1) j h
        have hk : j - i = (j - (i + 1)) + 1 := by omega
        refine ⟨by omega, ⟨by simp; omega, ?_⟩⟩
        simp only [List.get_eq_getElem] at hp ⊢
        simp only [hk, List.getElem_cons_succ]
        exact hp

theorem string_length_data (s : String) : s.length = s.data.length := rfl

theorem string_ne_empty_iff (s : String) : s ≠ "" ↔ s.data ≠ [] := by
  constructor
  · intro h hdata
    exact h (String.ext hdata)
  · intro h he
    subst he
    exact h rfl

theorem string_pos_of_ne_empty {n : String} (h : n ≠ "") : 0 < n.length := by
  rw [string_length_data]
  have := (string_ne_empty_iff n).mp h
  cases hd : n.data with
  | nil => exact absurd hd this
  | cons a l => simp [hd]

theorem pyRfind_get (s : String) (c : Char) (hi : 0 ≤ pyRfind s c) :
    ∃ h2 : (pyRfind s c).toNat < s.data.length,
      s.data.get ⟨(pyRfind s c).toNat, h2⟩ = c := by
  cases heq : s.data.reverse.findIdx? (fun x => x == c) with
  | none =>
      exfalso
      unfold pyRfind at hi
      rw [heq] at hi
      norm_num at hi
  | some j =>
      have hval : pyRfind s c = (s.length : Int) - 1 - (j : Int) := by
        unfold pyRfind
        rw [heq]
      obtain ⟨-, hlt, hp⟩ := findIdx?_some_get (fun x => x == c) s.data.reverse 0 j heq
      simp only [Nat.sub_zero] at hlt hp
      rw [List.length_reverse] at hlt
      have hlen : s.length = s.data.length := rfl
      have htn : (pyRfind s c).toNat = s.data.length - 1 - j := by
        rw [hval, hlen]; omega
      rw [htn]
      have h2 : s.data.length - 1 - j < s.data.length := by
        rw [hval] at hi
        omega
      refine ⟨h2, ?_⟩
      have hrev := @List.getElem_reverse Char s.data j
        (by rw [List.length_reverse]; omega)
      simp only [List.get_eq_getElem]
      rw [← hrev]
      have hb : (s.data.reverse[j] == c) = true := by
        simpa [List.get_eq_getElem] using hp
      exact eq_of_beq hb

/-- The structural content of a nonempty `pySuffix`: it begins with a dot, it
is a strict, nonempty suffix of the name, and the name decomposes as the
remaining prefix followed by it. -/
theorem pySuffix_spec (n : String) (h : pySuffix n ≠ "") :
    0 < (pySuffix n).length ∧ (pySuffix n).length < n.length ∧
    (pySuffix n).data.head? = some dotChar ∧
    n.data = n.data.take (n.length - (pySuffix n).length) ++ (pySuffix n).data := by
  unfold pySuffix at h ⊢
  by_cases hc : 0 < pyRfind n dotChar ∧ pyRfind n dotChar < (n.length : Int) - 1
  · rw [if_pos hc] at h ⊢
    obtain ⟨h1, h2⟩ := hc
    obtain ⟨hlt, hget⟩ := pyRfind_get n dotChar (le_of_lt h1)
    have hlen : n.length = n.data.length := rfl
    have hdl : (String.mk (n.data.drop (pyRfind n dotChar).toNat)).length
        = n.data.length - (pyRfind n dotChar).toNat := by
      show (n.data.drop (pyRfind n dotChar).toNat).length = _
      rw [List.length_drop]
    refine ⟨?_, ?_, ?_, ?_⟩
    · rw [hdl]; omega
    · rw [hdl]; omega
    · show (n.data.drop (pyRfind n dotChar).toNat).head? = some dotChar
      rw [List.head?_drop]
      rw [List.getElem?_eq_getElem hlt]
      simp only [List.get_eq_getElem] at hget
      rw [hget]
    · rw [hdl]
      have heq3 : n.length - (n.data.length - (pyRfind n dotChar).toNat)
          = (pyRfind n dotChar).toNat := by
        omega
      rw [heq3]
      show n.data = _ ++ n.data.drop (pyRfind n dotChar).toNat
      exact (List.take_append_drop _ _).symm
  · rw [if_neg hc] at h
    exact absurd rfl h

theorem meta_rev : (".meta" : String).data.reverse
    = [Char.ofNat 97, Char.ofNat 116, Char.ofNat 101, Char.ofNat 109, dotChar] := by
  decide

theorem pyRfind_append_meta (n : String) :
    pyRfind (n ++ ".meta") dotChar = (n.length : Int) := by
  have hrev : (n ++ ".meta").data.reverse
      = Char.ofNat 97 :: Char.ofNat 116 :: Char.ofNat 101 :: Char.ofNat 109 :: dotChar
        :: n.data.reverse := by
    rw [String.data_append, List.reverse_append, meta_rev]
    rfl
  have hfind : List.findIdx? (fun x => x == dotChar) ((n ++ ".meta").data.reverse)
      = some 4 := by
    rw [hrev]
    rw [List.findIdx?_cons, if_neg (by decide), List.findIdx?_cons, if_neg (by decide),
      List.findIdx?_cons, if_neg (by decide), List.findIdx?_cons, if_neg (by decide),
      List.findIdx?_cons, if_pos (by decide)]
  unfold pyRfind
  rw [hfind]
  rw [String.length_append]
  have h5 : (".meta" : String).length = 5 := by decide
  rw [h5]
  push_cast
  ring

/-- Appending `".meta"` to a nonempty name yields a name whose `pathlib`
suffix is exactly `".meta"`. -/
theorem pySuffix_append_meta (n : String) (h : n ≠ "") :
    pySuffix (n ++ ".meta") = ".meta" := by
  have hpos : 0 < n.length := string_pos_of_ne_empty h
  have hlen : (n ++ ".meta").length = n.length + 5 := by
    rw [String.length_append]
    have h5 : (".meta" : String).length = 5 := by decide
    omega
  unfold pySuffix
  rw [pyRfind_append_meta n]
  rw [if_pos (by rw [hlen]; push_cast; constructor <;> omega)]
  apply String.ext
  show (n ++ ".meta").data.drop (n.length : Int).toNat = _
  rw [Int.toNat_ofNat, String.data_append, string_length_data, List.drop_left]

theorem pySuffix_sep_free {n : String} (hsep : sepChar ∉ n.data) :
    sepChar ∉ (pySuffix n).data := by
  by_cases h : pySuffix n = ""
  · rw [h]
    decide
  · obtain ⟨-, -, -, hdec⟩ := pySuffix_spec n h
    intro hm
    apply hsep
    rw [hdec]
    exact List.mem_append_right _ hm

theorem pySuffix_head {n : String} (h : pySuffix n ≠ "") :
    ∃ rest, (pySuffix n).data = dotChar :: rest := by
  obtain ⟨hpos, -, hhead, -⟩ := pySuffix_spec n h
  cases hd : (pySuffix n).data with
  | nil => rw [hd] at hhead; cases hhead
  | cons a r =>
      rw [hd] at hhead
      simp only [List.head?_cons, Option.some.injEq] at hhead
      subst hhead
      exact ⟨r, rfl⟩

/-- The append transformation performed by `is_missing_metafile`:
`p.with_suffix(p.suffix + ".meta")` succeeds on every path with a nonempty,
separator-free final component and appends `".meta"` to the full name. -/
theorem withSuffix_append_meta (p : PyPath) (hn : p.name ≠ "")
    (hsep : sepChar ∉ p.name.data) :
    p.withSuffix (p.suffix ++ ".meta") = some ⟨p.dirs, p.name ++ ".meta"⟩ := by
  have hfs : p.suffix = pySuffix p.name := rfl
  have hc1 : sepChar ∉ (p.suffix ++ ".meta").data := by
    rw [String.data_append]
    intro hm
    rcases List.mem_append.mp hm with hm1 | hm2
    · rw [hfs] at hm1
      exact pySuffix_sep_free hsep hm1
    · revert hm2
      decide
  have hc2 : ¬(((p.suffix ++ ".meta") ≠ "" ∧ (p.suffix ++ ".meta").data.head? ≠ some dotChar)
      ∨ (p.suffix ++ ".meta") = ".") := by
    rintro (⟨-, hhead⟩ | hdot)
    · apply hhead
      rw [String.data_append]
      by_cases hsfx : pySuffix p.name = ""
      · rw [hfs, hsfx]
        decide
      · obtain ⟨rest, hrest⟩ := pySuffix_head hsfx
        rw [hfs, hrest]
        rfl
    · have := congrArg String.length hdot
      rw [String.length_append] at this
      have h1 : ("." : String).length = 1 := by decide
      have h5 : (".meta" : String).length = 5 := by decide
      omega
  unfold PyPath.withSuffix
  rw [if_neg hc1, if_neg hc2, if_neg hn]
  show some (⟨p.dirs,
      if pySuffix p.name = "" then p.name ++ (p.suffix ++ ".meta")
      else String.mk (p.name.data.take (p.name.length - (pySuffix p.name).length))
        ++ (p.suffix ++ ".meta")⟩ : PyPath)
    = some ⟨p.dirs, p.name ++ ".meta"⟩
  by_cases hsfx : pySuffix p.name = ""
  · rw [if_pos hsfx, hfs, hsfx, String.empty_append]
  · rw [if_neg hsfx, hfs, ← String.append_assoc]
    obtain ⟨-, -, -, hdec⟩ := pySuffix_spec p.name hsfx
    have hkey : String.mk (p.name.data.take (p.name.length - (pySuffix p.name).length))
        ++ pySuffix p.name = p.name := by
      apply String.ext
      rw [String.data_append]
      exact hdec.symm
    rw [hkey]

/-- The strip transformation performed by `is_dangling_metafile`: on a path
whose suffix is `".meta"`, `p.with_suffix("")` succeeds and removes that
trailing `".meta"`; the original name is the result plus `".meta"`. -/
theorem withSuffix_strip (p : PyPath) (h : p.suffix = ".meta") :
    p.name = String.mk (p.name.data.take (p.name.length - 5)) ++ ".meta" ∧
    p.withSuffix ("") = some ⟨p.dirs, String.mk (p.name.data.take (p.name.length - 5))⟩ := by
  have h' : pySuffix p.name = ".meta" := h
  have hne : pySuffix p.name ≠ "" := by rw [h']; decide
  obtain ⟨hpos, hlt, -, hdec⟩ := pySuffix_spec p.name hne
  have h5 : (pySuffix p.name).length = 5 := by rw [h']; decide
  rw [h5] at hdec hlt
  rw [h'] at hdec
  have hname : p.name = String.mk (p.name.data.take (p.name.length - 5)) ++ ".meta" := by
    apply String.ext
    rw [String.data_append]
    exact hdec
  refine ⟨hname, ?_⟩
  have hn : p.name ≠ "" := by
    rw [string_ne_empty_iff]
    intro hnil
    rw [string_length_data, hnil] at hlt
    simp at hlt
  unfold PyPath.withSuffix
  rw [if_neg (by decide), if_neg (by decide), if_neg hn]
  show some (⟨p.dirs,
      if pySuffix p.name = "" then p.name ++ ""
      else String.mk (p.name.data.take (p.name.length - (pySuffix p.name).length)) ++ ""⟩ : PyPath)
    = some ⟨p.dirs, String.mk (p.name.data.take (p.name.length - 5))⟩
  rw [if_neg hne, h5, String.append_empty]

/-- `p.with_suffix("")` succeeds on every path with a nonempty final
component. -/
theorem withSuffix_empty_some (p : PyPath) (hn : p.name ≠ "") :
    ∃ q : PyPath, p.withSuffix ("") = some q := by
  unfold PyPath.withSuffix
  rw [if_neg (by decide), if_neg (by decide), if_neg hn]
  exact ⟨_, rfl⟩

/-! ## Membership in the collected sets -/

theorem FSTree.sizeOf_children_lt (t : FSTree) : sizeOf t.children < sizeOf t := by
  cases t with
  | file n =>
      have h1 : 1 ≤ sizeOf n := by cases n; simp
      simp [FSTree.children]
      omega
  | dir n cs =>
      simp [FSTree.children]

theorem sizeOf_filter_le (p : FSTree → Bool) (l : List FSTree) :
    sizeOf (l.filter p) ≤ sizeOf l := by
  induction l with
  | nil => simp
  | cons a l ih =>
      rw [List.filter_cons]
      by_cases h : p a <;> simp [h] <;> omega

theorem collected_cases {trans res : PyPath → Bool → Bool} {pfx : List String}
    {t : FSTree} {p : PyPath} :
    Collected trans res pfx t p ↔
      (∃ c, c ∈ t.children ∧ trans ⟨pfx, c.name⟩ c.isDir = false ∧
        res ⟨pfx, c.name⟩ c.isDir = false ∧ p = ⟨pfx, c.name⟩) ∨
      (∃ c, c ∈ t.children ∧ trans ⟨pfx, c.name⟩ c.isDir = false ∧
        c.isDir = true ∧ Collected trans res (pfx ++ [c.name]) c p) := by
  constructor
  · intro h
    cases h with
    | here hc ht hr => exact Or.inl ⟨_, hc, ht, hr, rfl⟩
    | deeper hc ht hd hcol => exact Or.inr ⟨_, hc, ht, hd, hcol⟩
  · intro h
    rcases h with ⟨c, hc, ht, hr, he⟩ | ⟨c, hc, ht, hd, hcol⟩
    · subst he; exact Collected.here hc ht hr
    · exact Collected.deeper hc ht hd hcol

theorem mem_find_elems_joint (trans res : PyPath → Bool → Bool) (n : Nat) :
    (∀ (t : FSTree) (pfx : List String) (acc : Finset PyPath) (p : PyPath), sizeOf t ≤ n →
      (p ∈ find_elems_rec trans res t pfx acc ↔ p ∈ acc ∨ Collected trans res pfx t p)) ∧
    (∀ (l : List FSTree) (pfx : List String) (acc : Finset PyPath) (p : PyPath), sizeOf l ≤ n →
      (p ∈ find_elems_loop trans res l pfx acc ↔
        p ∈ acc ∨ ∃ c, c ∈ l ∧ c.isDir = true ∧ Collected trans res (pfx ++ [c.name]) c p)) := by
  induction n using Nat.strong_induction_on with
  | _ n ih =>
    constructor
    · intro t pfx acc p hle
      rw [find_elems_rec]
      have hsz : sizeOf (t.children.filter fun pc => !trans ⟨pfx, pc.name⟩ pc.isDir) < n :=
        lt_of_lt_of_le (lt_of_le_of_lt (sizeOf_filter_le _ _) (FSTree.sizeOf_children_lt t)) hle
      rw [(ih _ hsz).2 _ _ _ _ (le_refl _), collected_cases]
      simp only [Finset.mem_union, List.mem_toFinset, List.mem_map, List.mem_filter,
        Bool.not_eq_true']
      constructor
      · rintro ((h | ⟨c, ⟨⟨hc, ht⟩, hr⟩, he⟩) | ⟨c, ⟨hc, ht⟩, hd, hcol⟩)
        · exact Or.inl h
        · exact Or.inr (Or.inl ⟨c, hc, ht, hr, he.symm⟩)
        · exact Or.inr (Or.inr ⟨c, hc, ht, hd, hcol⟩)
      · rintro (h | ⟨c, hc, ht, hr, he⟩ | ⟨c, hc, ht, hd, hcol⟩)
        · exact Or.inl (Or.inl h)
        · exact Or.inl (Or.inr ⟨c, ⟨⟨hc, ht⟩, hr⟩, he.symm⟩)
        · exact Or.inr ⟨c, ⟨hc, ht⟩, hd, hcol⟩
    · intro l pfx acc p hle
      cases l with
      | nil => simp [find_elems_loop]
      | cons c rest =>
        have hrest : sizeOf rest < n := by
          have : sizeOf rest < sizeOf (c :: rest) := by simp <;> omega
          omega
        have hc : sizeOf c < n := by
          have : sizeOf c < sizeOf (c :: rest) := by simp <;> omega
          omega
        rw [find_elems_loop]
        by_cases hd : c.isDir
        · rw [if_pos hd]
          rw [(ih _ hrest).2 _ _ _ _ (le_refl _), (ih _ hc).1 _ _ _ _ (le_refl _)]
          constructor
          · rintro ((h | hcol) | ⟨c1, hc1, hd1, hcol1⟩)
            · exact Or.inl h
            · exact Or.inr ⟨c, List.mem_cons_self c rest, hd, hcol⟩
            · exact Or.inr ⟨c1, List.mem_cons_of_mem c hc1, hd1, hcol1⟩
          · rintro (h | ⟨c1, hc1, hd1, hcol1⟩)
            · exact Or.inl (Or.inl h)
            · rcases List.mem_cons.mp hc1 with he | hm
              · subst he; exact Or.inl (Or.inr hcol1)
              · exact Or.inr ⟨c1, hm, hd1, hcol1⟩
        · rw [if_neg hd]
          rw [(ih _ hrest).2 _ _ _ _ (le_refl _)]
          constructor
          · rintro (h | ⟨c1, hc1, hd1, hcol1⟩)
            · exact Or.inl h
            · exact Or.inr ⟨c1, List.mem_cons_of_mem c hc1, hd1, hcol1⟩
          · rintro (h | ⟨c1, hc1, hd1, hcol1⟩)
            · exact Or.inl h
            · rcases List.mem_cons.mp hc1 with he | hm
              · subst he; exact absurd hd1 hd
              · exact Or.inr ⟨c1, hm, hd1, hcol1⟩

theorem mem_find_elems_rec {trans res : PyPath → Bool → Bool} {t : FSTree}
    {pfx : List String} {acc : Finset PyPath} {p : PyPath} :
    p ∈ find_elems_rec trans res t pfx acc ↔ p ∈ acc ∨ Collected trans res pfx t p :=
  (mem_find_elems_joint trans res (sizeOf t)).1 t pfx acc p (le_refl _)

theorem mem_gather_asset_paths {root : FSTree} {ef ed : Finset String} {p : PyPath} :
    p ∈ gather_asset_paths root ef ed ↔
      Collected (asset_is_excluded ef ed) (fun _ _ => false) [] root p := by
  show p ∈ find_elems_rec _ _ root [] ∅ ↔ _
  rw [mem_find_elems_rec]
  simp

theorem mem_gather_metafile_paths {root : FSTree} {ed : Finset String} {p : PyPath} :
    p ∈ gather_metafile_paths root ed ↔
      Collected (meta_is_excluded ed) is_not_metafile [] root p := by
  show p ∈ find_elems_rec _ _ root [] ∅ ↔ _
  rw [mem_find_elems_rec]
  simp

/-! ## Structure of collected paths -/

theorem collected_dirs {trans res : PyPath → Bool → Bool} {pfx : List String}
    {t : FSTree} {p : PyPath} (h : Collected trans res pfx t p) :
    ∃ ext, p.dirs = pfx ++ ext ∧ ∀ d ∈ ext, ∃ dd, trans ⟨dd, d⟩ true = false := by
  induction h with
  | here hc ht hr => exact ⟨[], by simp, by simp⟩
  | @deeper pfx t c p hc ht hd hcol ih =>
      obtain ⟨ext, hdirs, hall⟩ := ih
      refine ⟨c.name :: ext, ?_, ?_⟩
      · rw [hdirs, List.append_assoc]
        rfl
      · intro d hdm
        rcases List.mem_cons.mp hdm with he | hm
        · subst he
          rw [hd] at ht
          exact ⟨pfx, ht⟩
        · exact hall d hm

theorem mem_name_uniq {cs : List FSTree} (hnd : (cs.map FSTree.name).Nodup)
    {a b : FSTree} (ha : a ∈ cs) (hb : b ∈ cs) (hn : a.name = b.name) : a = b :=
  List.inj_on_of_nodup_map hnd ha hb hn

theorem WFForest.nodup {cs : List FSTree} (h : WFForest cs) :
    (cs.map FSTree.name).Nodup := by
  cases h with
  | mk h1 h2 => exact h1

theorem WFForest.child_wf {cs : List FSTree} (h : WFForest cs) {c : FSTree} (hc : c ∈ cs) :
    WFForest c.children := by
  cases h with
  | mk h1 h2 => exact h2 c hc

/-- Inverting a `HasDir` derivation: the first component names a directory
child, and the remainder (if any) is a `HasDir` of that child. -/
theorem hasDir_inv {cs : List FSTree} {q : List String} (h : HasDir cs q) :
    ∃ t rest, t ∈ cs ∧ t.isDir = true ∧ q = t.name :: rest ∧
      (rest = [] ∨ HasDir t.children rest) := by
  cases h with
  | here hmem hdir => exact ⟨_, [], hmem, hdir, rfl, Or.inl rfl⟩
  | there hmem hdir hrest => exact ⟨_, _, hmem, hdir, rfl, Or.inr hrest⟩

/-- When the tree is well formed and a directory node sits at the very path of
a collected entry, that entry's node is the directory, so it passed the
traversal predicate with `is_dir() = true`. -/
theorem collected_hasdir {trans res : PyPath → Bool → Bool} :
    ∀ {pfx : List String} {t : FSTree} {p : PyPath}, Collected trans res pfx t p →
      ∀ ext, p.dirs = pfx ++ ext → WFForest t.children →
        HasDir t.children (ext ++ [p.name]) →
        trans ⟨p.dirs, p.name⟩ true = false := by
  intro pfx t p h
  induction h with
  | @here pfx t c hc ht hr =>
      intro ext hdirs hwf hhd
      have hext : ext = [] := by
        have h2 : pfx = pfx ++ ext := hdirs
        have h3 := congrArg List.length h2
        rw [List.length_append] at h3
        have hz : ext.length = 0 := by omega
        exact List.eq_nil_of_length_eq_zero hz
      subst hext
      simp only [List.nil_append] at hhd
      obtain ⟨t1, rest, hmem, hdir, hq, -⟩ := hasDir_inv hhd
      have hinj : c.name = t1.name ∧ rest = [] := by
        have : ([c.name] : List String) = t1.name :: rest := hq
        injection this with h1 h2
        exact ⟨h1, h2.symm⟩
      have ht1 : t1 = c := mem_name_uniq hwf.nodup hmem hc hinj.1.symm
      subst ht1
      rw [hdir] at ht
      exact ht
  | @deeper pfx t c p hc ht hd hcol ih =>
      intro ext hdirs hwf hhd
      obtain ⟨ext2, hdirs2, -⟩ := collected_dirs hcol
      have hext : ext = c.name :: ext2 := by
        rw [hdirs2] at hdirs
        rw [List.append_assoc] at hdirs
        have := List.append_cancel_left hdirs
        simpa using this.symm
      subst hext
      obtain ⟨t1, rest, hmem, hdir, hq, hrest⟩ := hasDir_inv hhd
      have hinj : c.name = t1.name ∧ ext2 ++ [p.name] = rest := by
        have : c.name :: (ext2 ++ [p.name]) = t1.name :: rest := hq
        injection this with h1 h2
        exact ⟨h1, h2⟩
      have ht1 : t1 = c := mem_name_uniq hwf.nodup hmem hc hinj.1.symm
      subst ht1
      rcases hrest with hnil | hdeep
      · rw [← hinj.2] at hnil
        exact absurd hnil (by simp)
      · rw [← hinj.2] at hdeep
        exact ih ext2 hdirs2 (hwf.child_wf hc) hdeep

/-! ## The exclusion predicates, unfolded -/

theorem asset_is_excluded_false_iff {ef ed : Finset String} {p : PyPath} {isDir : Bool} :
    asset_is_excluded ef ed p isDir = false ↔
      p.name ∉ (if isDir = true then ed else ef) ∧ pySuffix p.name ≠ ".meta" := by
  unfold asset_is_excluded
  rw [Bool.or_eq_false_iff]
  simp [PyPath.suffix]

theorem meta_is_excluded_false_file {ed : Finset String} {p : PyPath} :
    meta_is_excluded ed p false = false ↔ pySuffix p.name = ".meta" := by
  unfold meta_is_excluded
  simp [PyPath.suffix]

theorem meta_is_excluded_false_dir {ed : Finset String} {p : PyPath} :
    meta_is_excluded ed p true = false ↔ p.name ∉ ed := by
  unfold meta_is_excluded
  simp

/-! ## The collected asset set, characterised declaratively -/

theorem collected_to_assetEntry {ef ed : Finset String} :
    ∀ {pfx : List String} {t : FSTree} {p : PyPath},
      Collected (asset_is_excluded ef ed) (fun _ _ => false) pfx t p →
      ∃ q n, p = ⟨pfx ++ q, n⟩ ∧ AssetEntry ef ed t.children ⟨q, n⟩ := by
  intro pfx t p h
  induction h with
  | @here pfx t c hc ht hr =>
      obtain ⟨h1, h2⟩ := asset_is_excluded_false_iff.mp ht
      exact ⟨[], c.name, by simp, AssetEntry.here hc h1 h2⟩
  | @deeper pfx t c p hc ht hd hcol ih =>
      obtain ⟨q, n, hp, hae⟩ := ih
      obtain ⟨h1, h2⟩ := asset_is_excluded_false_iff.mp ht
      rw [hd] at h1
      refine ⟨c.name :: q, n, ?_, AssetEntry.under hc hd (by simpa using h1) h2 hae⟩
      rw [hp]
      simp

theorem assetEntry_to_collected {ef ed : Finset String} :
    ∀ {cs : List FSTree} {q0 : List String} {n0 : String}, AssetEntry ef ed cs ⟨q0, n0⟩ →
      ∀ (t : FSTree) (pfx : List String), t.children = cs →
        Collected (asset_is_excluded ef ed) (fun _ _ => false) pfx t ⟨pfx ++ q0, n0⟩ := by
  intro cs q0 n0 h
  generalize hgen : (⟨q0, n0⟩ : PyPath) = p0 at h
  induction h generalizing q0 n0 with
  | @here cs c hc h1 h2 =>
      intro t pfx hch
      obtain ⟨hq, hn⟩ : q0 = [] ∧ n0 = c.name := by
        have hx := hgen
        simp only [PyPath.mk.injEq] at hx
        exact hx
      rw [hq, hn]
      have hcol : Collected (asset_is_excluded ef ed) (fun _ _ => false) pfx t ⟨pfx, c.name⟩ :=
        Collected.here (hch ▸ hc) (asset_is_excluded_false_iff.mpr ⟨h1, h2⟩) rfl
      simpa using hcol
  | @under cs c dirs n hc hd h1 h2 hae ih =>
      intro t pfx hch
      obtain ⟨hq, hn⟩ : q0 = c.name :: dirs ∧ n0 = n := by
        have hx := hgen
        simp only [PyPath.mk.injEq] at hx
        exact hx
      rw [hq, hn]
      have hcol := ih rfl c (pfx ++ [c.name]) rfl
      have hstep : Collected (asset_is_excluded ef ed) (fun _ _ => false) pfx t
          ⟨(pfx ++ [c.name]) ++ dirs, n⟩ :=
        Collected.deeper (hch ▸ hc)
          (asset_is_excluded_false_iff.mpr ⟨by rw [hd]; simpa using h1, h2⟩) hd hcol
      simpa [List.append_assoc] using hstep

theorem mem_gather_asset_iff_assetEntry {root : FSTree} {ef ed : Finset String} {p : PyPath} :
    p ∈ gather_asset_paths root ef ed ↔ AssetEntry ef ed root.children p := by
  rw [mem_gather_asset_paths]
  constructor
  · intro h
    obtain ⟨q, n, hp, hae⟩ := collected_to_assetEntry h
    rw [hp]
    simpa using hae
  · intro h
    obtain ⟨dirs, name⟩ := p
    have := assetEntry_to_collected h root [] rfl
    simpa using this

/-! ## Suffixes of collected entries -/

theorem collected_meta_suffix {ed : Finset String} :
    ∀ {pfx : List String} {t : FSTree} {p : PyPath},
      Collected (meta_is_excluded ed) is_not_metafile pfx t p →
      pySuffix p.name = ".meta" := by
  intro pfx t p h
  induction h with
  | @here pfx t c hc ht hr =>
      have hd : c.isDir = false := hr
      rw [hd] at ht
      exact meta_is_excluded_false_file.mp ht
  | deeper hc ht hd hcol ih => exact ih

theorem collected_asset_suffix {ef ed : Finset String} :
    ∀ {pfx : List String} {t : FSTree} {p : PyPath},
      Collected (asset_is_excluded ef ed) (fun _ _ => false) pfx t p →
      pySuffix p.name ≠ ".meta" := by
  intro pfx t p h
  induction h with
  | here hc ht hr => exact (asset_is_excluded_false_iff.mp ht).2
  | deeper hc ht hd hcol ih => exact ih

/-! ## Valid names of collected entries -/

theorem ValidForest.child_valid {cs : List FSTree} (h : ValidForest cs) {c : FSTree} (hc : c ∈ cs) :
    ValidForest c.children := by
  cases h with
  | mk h1 h2 => exact h2 c hc

theorem ValidForest.name_valid {cs : List FSTree} (h : ValidForest cs) {c : FSTree}
    (hc : c ∈ cs) : valid_name c.name = true := by
  cases h with
  | mk h1 h2 => exact h1 c hc

theorem collected_valid {trans res : PyPath → Bool → Bool} :
    ∀ {pfx : List String} {t : FSTree} {p : PyPath}, Collected trans res pfx t p →
      ValidForest t.children → valid_name p.name = true := by
  intro pfx t p h
  induction h with
  | @here pfx t c hc ht hr =>
      intro hv
      exact hv.name_valid hc
  | @deeper pfx t c p hc ht hd hcol ih =>
      intro hv
      exact ih (hv.child_valid hc)

theorem valid_name_parts {n : String} (h : valid_name n = true) :
    n ≠ "" ∧ sepChar ∉ n.data := by
  unfold valid_name at h
  simp at h
  exact h

/-! ## Error-free traversal agrees with the pure collector -/

theorem find_elems_e_joint (raises : List String → Bool) (hr : ∀ q, raises q = false)
    (trans res : PyPath → Bool → Bool) (n : Nat) :
    (∀ (t : FSTree) (pfx : List String) (acc : Finset PyPath), sizeOf t ≤ n →
      find_elems_rec_e raises trans res t pfx acc
        = Except.ok (find_elems_rec trans res t pfx acc)) ∧
    (∀ (l : List FSTree) (pfx : List String) (acc : Finset PyPath), sizeOf l ≤ n →
      find_elems_loop_e raises trans res l pfx acc
        = Except.ok (find_elems_loop trans res l pfx acc)) := by
  induction n using Nat.strong_induction_on with
  | _ n ih =>
    constructor
    · intro t pfx acc hle
      rw [find_elems_rec_e, find_elems_rec]
      rw [if_neg (show ¬ raises pfx = true by simp [hr])]
      have hsz : sizeOf (t.children.filter fun pc => !trans ⟨pfx, pc.name⟩ pc.isDir) < n :=
        lt_of_lt_of_le (lt_of_le_of_lt (sizeOf_filter_le _ _) (FSTree.sizeOf_children_lt t)) hle
      exact (ih _ hsz).2 _ _ _ (le_refl _)
    · intro l pfx acc hle
      cases l with
      | nil => simp [find_elems_loop_e, find_elems_loop]
      | cons c rest =>
        have hrest : sizeOf rest < n := by
          have : sizeOf rest < sizeOf (c :: rest) := by simp <;> omega
          omega
        have hc : sizeOf c < n := by
          have : sizeOf c < sizeOf (c :: rest) := by simp <;> omega
          omega
        rw [find_elems_loop_e, find_elems_loop]
        by_cases hd : c.isDir
        · rw [if_pos hd, if_pos hd]
          rw [(ih _ hc).1 _ _ _ (le_refl _)]
          exact (ih _ hrest).2 _ _ _ (le_refl _)
        · rw [if_neg hd, if_neg hd]
          exact (ih _ hrest).2 _ _ _ (le_refl _)

theorem gather_asset_paths_e_no_raise {raises : List String → Bool} {root : FSTree}
    {ef ed : Finset String} (hr : ∀ q, raises q = false) :
    gather_asset_paths_e raises root ef ed = Except.ok (gather_asset_paths root ef ed) :=
  (find_elems_e_joint raises hr _ _ (sizeOf root)).1 root [] ∅ (le_refl _)

theorem gather_metafile_paths_e_no_raise {raises : List String → Bool} {root : FSTree}
    {ed : Finset String} (hr : ∀ q, raises q = false) :
    gather_metafile_paths_e raises root ed = Except.ok (gather_metafile_paths root ed) :=
  (find_elems_e_joint raises hr _ _ (sizeOf root)).1 root [] ∅ (le_refl _)

/-! ## The verification runners never raise on real listings -/

theorem is_missing_metafile_eval {a : PyPath} {metafiles : Finset PyPath}
    (hne : a.name ≠ "") (hsep : sepChar ∉ a.name.data) :
    is_missing_metafile a metafiles
      = some (decide ((⟨a.dirs, a.name ++ ".meta"⟩ : PyPath) ∉ metafiles)) := by
  unfold is_missing_metafile
  rw [withSuffix_append_meta a hne hsep]
  rfl

theorem verify_missing_loop_ok (assets : List PyPath) (metafiles : Finset PyPath)
    (hv : ∀ a ∈ assets, valid_name a.name = true) :
    ∃ evs, verify_missing_loop assets metafiles = Except.ok evs := by
  induction assets with
  | nil => exact ⟨[], rfl⟩
  | cons a rest ih =>
      obtain ⟨evs, hevs⟩ := ih (fun x hx => hv x (List.mem_cons_of_mem a hx))
      obtain ⟨hne, hsep⟩ := valid_name_parts (hv a (List.mem_cons_self a rest))
      refine ⟨test_events (path_str a)
        (decide ((⟨a.dirs, a.name ++ ".meta"⟩ : PyPath) ∉ metafiles)) ("No .metafile")
        ("Metafile " ++ path_str a ++ ".meta not found.") ++ evs, ?_⟩
      rw [verify_missing_loop, is_missing_metafile_eval hne hsep, hevs]

theorem verify_dangling_loop_ok (metafiles : List PyPath) (assets : Finset PyPath)
    (hv : ∀ m ∈ metafiles, valid_name m.name = true) :
    ∃ evs, verify_dangling_loop metafiles assets = Except.ok evs := by
  induction metafiles with
  | nil => exact ⟨[], rfl⟩
  | cons m rest ih =>
      obtain ⟨evs, hevs⟩ := ih (fun x hx => hv x (List.mem_cons_of_mem m hx))
      obtain ⟨hne, -⟩ := valid_name_parts (hv m (List.mem_cons_self m rest))
      obtain ⟨q, hq⟩ := withSuffix_empty_some m hne
      have hd : is_dangling_metafile m assets = some (decide (q ∉ assets)) := by
        unfold is_dangling_metafile
        rw [hq]
        rfl
      refine ⟨test_events (path_str m) (decide (q ∉ assets)) ("No asset")
        ("No file corresponding with " ++ path_str m ++ ".") ++ evs, ?_⟩
      rw [verify_dangling_loop, hd, hevs]

theorem main_run_ok (raises : List String → Bool) (root : FSTree)
    (ef ed : Finset String) (enum : Finset PyPath → List PyPath)
    (hr : ∀ q, raises q = false)
    (hvalid : ValidForest root.children)
    (henum : ∀ (S : Finset PyPath) (p : PyPath), p ∈ enum S → p ∈ S) :
    ∃ evs, main_run raises root ef ed enum = Except.ok evs := by
  have hva : ∀ a ∈ enum (gather_asset_paths root ef ed), valid_name a.name = true := by
    intro a ha
    have hmem := henum _ _ ha
    rw [mem_gather_asset_paths] at hmem
    exact collected_valid hmem hvalid
  have hvm : ∀ m ∈ enum (gather_metafile_paths root ed), valid_name m.name = true := by
    intro m hm
    have hmem := henum _ _ hm
    rw [mem_gather_metafile_paths] at hmem
    exact collected_valid hmem hvalid
  obtain ⟨evs1, h1⟩ := verify_missing_loop_ok _ (gather_metafile_paths root ed) hva
  obtain ⟨evs2, h2⟩ := verify_dangling_loop_ok _ (gather_asset_paths root ef ed) hvm
  refine ⟨([TCEvent.suiteStarted ("missing_metafiles")] ++ evs1 ++
      [TCEvent.suiteFinished ("missing_metafiles")]) ++
    ([TCEvent.suiteStarted ("dangling_metafiles")] ++ evs2 ++
      [TCEvent.suiteFinished ("dangling_metafiles")]), ?_⟩
  unfold main_run
  simp only [gather_asset_paths_e_no_raise hr, gather_metafile_paths_e_no_raise hr,
    verify_missing_metafiles_e, verify_dangling_metafiles_e, h1, h2, List.append_assoc]

/-! # The claims -/

/-- C1: for every path `asset` (with a real final component: nonempty and
separator-free) and every set `metafiles`, `is_missing_metafile(asset,
metafiles)` returns true iff the path obtained by appending the literal
suffix `".meta"` to the full name of `asset` is not an element of
`metafiles`. -/
theorem is_missing_metafile_appends_meta (asset : PyPath) (metafiles : Finset PyPath)
    (hne : asset.name ≠ "") (hsep : sepChar ∉ asset.name.data) :
    is_missing_metafile asset metafiles = some true ↔
      (⟨asset.dirs, asset.name ++ ".meta"⟩ : PyPath) ∉ metafiles := by
  rw [is_missing_metafile_eval hne hsep]
  simp

theorem is_missing_metafile_appends_meta_witness :
    (("a.txt" : String) ≠ "" ∧ sepChar ∉ ("a.txt" : String).data) ∧
    (is_missing_metafile ⟨[], "a.txt"⟩ (∅ : Finset PyPath) = some true ↔
      (⟨[], "a.txt.meta"⟩ : PyPath) ∉ (∅ : Finset PyPath)) := by
  refine ⟨⟨by decide, by decide⟩, ?_⟩
  have h := is_missing_metafile_appends_meta ⟨[], "a.txt"⟩ ∅ (by decide) (by decide)
  rw [show (("a.txt" : String) ++ ".meta") = "a.txt.meta" from by decide] at h
  exact h

/-- C2: for every path `metafile` whose suffix is `".meta"` and every set
`assets`, `is_dangling_metafile(metafile, assets)` returns true iff the path
obtained by removing the trailing `".meta"` from `metafile` is not an element
of `assets`. -/
theorem is_dangling_metafile_strips_meta (metafile : PyPath) (assets : Finset PyPath)
    (h : metafile.suffix = ".meta") :
    ∃ n0 : String, metafile.name = n0 ++ ".meta" ∧
      (is_dangling_metafile metafile assets = some true ↔
        (⟨metafile.dirs, n0⟩ : PyPath) ∉ assets) := by
  obtain ⟨hname, hws⟩ := withSuffix_strip metafile h
  refine ⟨String.mk (metafile.name.data.take (metafile.name.length - 5)), hname, ?_⟩
  unfold is_dangling_metafile
  rw [hws]
  simp

theorem is_dangling_metafile_strips_meta_witness :
    PyPath.suffix ⟨[], "a.txt.meta"⟩ = ".meta" ∧
    (∃ n0 : String, ("a.txt.meta" : String) = n0 ++ ".meta" ∧
      (is_dangling_metafile ⟨[], "a.txt.meta"⟩ ({⟨[], "a.txt"⟩} : Finset PyPath) = some true ↔
        (⟨[], n0⟩ : PyPath) ∉ ({⟨[], "a.txt"⟩} : Finset PyPath))) :=
  ⟨by decide, is_dangling_metafile_strips_meta ⟨[], "a.txt.meta"⟩ {⟨[], "a.txt"⟩} (by decide)⟩

/-- C3: for every asset path (nonempty separator-free final component, suffix
not `".meta"`), the append transformation used by `is_missing_metafile`
followed by the strip transformation used by `is_dangling_metafile` yields
the original path. -/
theorem append_strip_roundtrip (p : PyPath)
    (hne : p.name ≠ "") (hsep : sepChar ∉ p.name.data) (hsfx : p.suffix ≠ ".meta") :
    (p.withSuffix (p.suffix ++ ".meta")).bind (fun q => q.withSuffix ("")) = some p := by
  rw [withSuffix_append_meta p hne hsep]
  show (⟨p.dirs, p.name ++ ".meta"⟩ : PyPath).withSuffix ("") = some p
  have hq : (⟨p.dirs, p.name ++ ".meta"⟩ : PyPath).suffix = ".meta" := by
    show pySuffix (p.name ++ ".meta") = ".meta"
    exact pySuffix_append_meta p.name hne
  obtain ⟨-, hws⟩ := withSuffix_strip _ hq
  rw [hws]
  simp only [Option.some.injEq]
  have hlen : (p.name ++ ".meta").length - 5 = p.name.length := by
    rw [String.length_append]
    have h5 : (".meta" : String).length = 5 := by decide
    omega
  have hnm : String.mk ((p.name ++ ".meta").data.take ((p.name ++ ".meta").length - 5))
      = p.name := by
    apply String.ext
    show ((p.name ++ ".meta").data.take ((p.name ++ ".meta").length - 5)) = p.name.data
    rw [hlen, String.data_append, string_length_data, List.take_left]
  rw [hnm]

theorem append_strip_roundtrip_witness :
    (("a.txt" : String) ≠ "" ∧ sepChar ∉ ("a.txt" : String).data ∧
      PyPath.suffix ⟨[], "a.txt"⟩ ≠ ".meta") ∧
    ((PyPath.withSuffix ⟨[], "a.txt"⟩ (PyPath.suffix ⟨[], "a.txt"⟩ ++ ".meta")).bind
      (fun q => q.withSuffix ("")) = some ⟨[], "a.txt"⟩) :=
  ⟨⟨by decide, by decide, by decide⟩,
    append_strip_roundtrip ⟨[], "a.txt"⟩ (by decide) (by decide) (by decide)⟩

/-- Shared core of claim C4, generic in the traversal predicate: when the
predicate excludes every directory named in `ed`, no collected path is equal
to, or lies beneath, a directory of the (well-formed) tree whose name is in
`ed`. -/
theorem collected_avoids_excluded_dir {trans res : PyPath → Bool → Bool} {ed : Finset String}
    (htrans : ∀ (dd : List String) (nm : String), nm ∈ ed → trans ⟨dd, nm⟩ true = true)
    {root : FSTree} {p : PyPath}
    (hcol : Collected trans res [] root p)
    (hwf : WFForest root.children)
    {q : List String} {e : String}
    (hdir : HasDir root.children (q ++ [e])) (he : e ∈ ed) :
    ¬ ∃ r, p.dirs ++ [p.name] = (q ++ [e]) ++ r := by
  rintro ⟨r, hr⟩
  rcases List.eq_nil_or_concat r with hrnil | ⟨r2, x, hrc⟩
  · subst hrnil
    rw [List.append_nil] at hr
    obtain ⟨hdq, hne⟩ := List.append_inj' hr (by simp)
    have hnm : p.name = e := by simpa using hne
    have htf := collected_hasdir hcol q (by rw [hdq]; rfl) hwf (by rw [hnm]; exact hdir)
    have htt := htrans p.dirs p.name (hnm ▸ he)
    rw [htf] at htt
    cases htt
  · subst hrc
    rw [List.concat_eq_append, ← List.append_assoc] at hr
    obtain ⟨hdq, -⟩ := List.append_inj' hr (by simp)
    have hmem : e ∈ p.dirs := by
      rw [hdq]
      simp
    obtain ⟨ext, hext, hall⟩ := collected_dirs hcol
    rw [hext] at hmem
    obtain ⟨dd, hdd⟩ := hall e (by simpa using hmem)
    have htt := htrans dd e he
    rw [hdd] at htt
    cases htt

/-- C4: over a well-formed tree, a directory whose name is in `excluded_dirs`
contributes no path — neither the directory's own path nor anything beneath
it appears in the asset set or the metafile set. -/
theorem excluded_dir_contributes_nothing (root : FSTree) (ef ed : Finset String)
    (q : List String) (e : String) (p : PyPath)
    (hwf : WFForest root.children)
    (hdir : HasDir root.children (q ++ [e]))
    (he : e ∈ ed)
    (hp : p ∈ gather_asset_paths root ef ed ∨ p ∈ gather_metafile_paths root ed) :
    ¬ ∃ r, p.dirs ++ [p.name] = (q ++ [e]) ++ r := by
  rcases hp with h | h
  · rw [mem_gather_asset_paths] at h
    refine collected_avoids_excluded_dir ?_ h hwf hdir he
    intro dd nm hnm
    unfold asset_is_excluded
    simp [hnm]
  · rw [mem_gather_metafile_paths] at h
    refine collected_avoids_excluded_dir ?_ h hwf hdir he
    intro dd nm hnm
    unfold meta_is_excluded
    simp [hnm]

theorem excluded_dir_contributes_nothing_witness :
    WFForest (FSTree.dir "r" [FSTree.file "a.txt", FSTree.dir "build" []]).children ∧
    HasDir (FSTree.dir "r" [FSTree.file "a.txt", FSTree.dir "build" []]).children
      (([] : List String) ++ ["build"]) ∧
    ("build" : String) ∈ ({"build"} : Finset String) ∧
    ((⟨[], "a.txt"⟩ : PyPath) ∈ gather_asset_paths
        (FSTree.dir "r" [FSTree.file "a.txt", FSTree.dir "build" []]) ∅ {"build"} ∨
      (⟨[], "a.txt"⟩ : PyPath) ∈ gather_metafile_paths
        (FSTree.dir "r" [FSTree.file "a.txt", FSTree.dir "build" []]) {"build"}) ∧
    ¬ ∃ r, ([] : List String) ++ ["a.txt"] = (([] : List String) ++ ["build"]) ++ r := by
  have hwf : WFForest (FSTree.dir "r" [FSTree.file "a.txt", FSTree.dir "build" []]).children := by
    refine WFForest.mk (by decide) ?_
    intro c hc
    rcases List.mem_cons.mp hc with h1 | hc2
    · subst h1
      exact WFForest.mk (by decide) (fun c hc => absurd hc (List.not_mem_nil c))
    · rcases List.mem_cons.mp hc2 with h2 | hc3
      · subst h2
        exact WFForest.mk (by decide) (fun c hc => absurd hc (List.not_mem_nil c))
      · exact absurd hc3 (List.not_mem_nil c)
  have hdir : HasDir (FSTree.dir "r" [FSTree.file "a.txt", FSTree.dir "build" []]).children
      (([] : List String) ++ ["build"]) :=
    HasDir.here (List.Mem.tail _ (List.Mem.head _)) rfl
  have he : ("build" : String) ∈ ({"build"} : Finset String) := by decide
  have hp : (⟨[], "a.txt"⟩ : PyPath) ∈ gather_asset_paths
      (FSTree.dir "r" [FSTree.file "a.txt", FSTree.dir "build" []]) ∅ {"build"} :=
    mem_gather_asset_paths.mpr
      (@Collected.here (asset_is_excluded ∅ {"build"}) (fun _ _ => false) []
        (FSTree.dir "r" [FSTree.file "a.txt", FSTree.dir "build" []]) (FSTree.file "a.txt")
        (List.Mem.head _) (by decide) rfl)
  exact ⟨hwf, hdir, he, Or.inl hp,
    excluded_dir_contributes_nothing _ ∅ {"build"} [] ("build") ⟨[], "a.txt"⟩
      hwf hdir he (Or.inl hp)⟩

/-- Counterexample to C5 as stated: with the tree `r/sub/a.txt` and empty
exclusion sets, the asset set contains the path `sub`, which is a directory
of the tree — the asset set is not made of files only. -/
theorem asset_set_contains_directory :
    (⟨[], "sub"⟩ : PyPath) ∈ gather_asset_paths
        (FSTree.dir "r" [FSTree.dir "sub" [FSTree.file "a.txt"]]) ∅ ∅ ∧
    HasDir (FSTree.dir "r" [FSTree.dir "sub" [FSTree.file "a.txt"]]).children ["sub"] := by
  constructor
  · exact mem_gather_asset_paths.mpr
      (@Collected.here (asset_is_excluded ∅ ∅) (fun _ _ => false) []
        (FSTree.dir "r" [FSTree.dir "sub" [FSTree.file "a.txt"]])
        (FSTree.dir "sub" [FSTree.file "a.txt"]) (List.Mem.head _) (by decide) rfl)
  · exact HasDir.here (List.Mem.head _) rfl

/-- C5 (amended): the asset set contains exactly the entries — files and
directories alike — reachable through non-excluded ancestors, whose name is
not in the respective exclusion set (`excluded_files` for files,
`excluded_directories` for directories) and whose suffix is not `".meta"`. -/
theorem gather_asset_paths_characterization (root : FSTree) (ef ed : Finset String)
    (p : PyPath) :
    p ∈ gather_asset_paths root ef ed ↔ AssetEntry ef ed root.children p :=
  mem_gather_asset_iff_assetEntry

/-- C6 is false of the code: the `duration` reported by `Test.__exit__` is
measured from the module-load default `_start_time`, not from scope entry.
With the class default captured at t=0ms, a test entered at t=1000ms and
exited at t=1001ms reports 1001ms, not 1ms, and a second instance entered at
t=500ms reports the same 1001ms. -/
theorem test_duration_measured_from_class_default :
    ((Test.make 0 ("t1")).enter 1000).1.exit 1001
      = ⟨"testFinished", [("name", "t1"), ("duration", toString (1001 : Int))]⟩ ∧
    ((Test.make 0 ("t2")).enter 500).1.exit 1001
      = ⟨"testFinished", [("name", "t2"), ("duration", toString (1001 : Int))]⟩ ∧
    (1001 : Int) ≠ 1001 - 1000 := by
  refine ⟨by decide, by decide, by decide⟩

/-- C7 is false of the code: `TeamCityMsg._msg` performs no escaping, so two
distinct property mappings — one whose single value contains a quote — emit
the very same line, and no consumer can parse the original mapping back. -/
theorem teamcity_msg_value_collision :
    TeamCityMsg.msg ⟨"testStarted", [("name", "a" ++ squoteStr ++ " x=" ++ squoteStr ++ "b")]⟩
      = TeamCityMsg.msg ⟨"testStarted", [("name", "a"), ("x", "b")]⟩ ∧
    [("name", "a" ++ squoteStr ++ " x=" ++ squoteStr ++ "b")]
      ≠ [("name", "a"), ("x", "b")] := by
  refine ⟨by decide, by decide⟩

/-- C8: the asset set and the metafile set of one run are disjoint — every
asset-set entry has a suffix other than `".meta"` and every metafile-set
entry has suffix `".meta"`. -/
theorem asset_metafile_sets_disjoint (root : FSTree) (ef ed : Finset String) :
    Disjoint (gather_asset_paths root ef ed) (gather_metafile_paths root ed) := by
  rw [Finset.disjoint_left]
  intro p hpa hpm
  rw [mem_gather_asset_paths] at hpa
  rw [mem_gather_metafile_paths] at hpm
  exact collected_asset_suffix hpa (collected_meta_suffix hpm)

/-- C9: a run whose traversal raises no filesystem error exits 0 no matter
how many `testFailed` events it reported (the report content never influences
the exit path), and a filesystem error in either gather propagates uncaught
and the run exits 1. -/
theorem exit_code_spec (raises : List String → Bool) (root : FSTree)
    (ef ed : Finset String) (enum : Finset PyPath → List PyPath) :
    ((∀ q, raises q = false) → ValidForest root.children →
      (∀ (S : Finset PyPath) (p : PyPath), p ∈ enum S → p ∈ S) →
      exit_code (main_run raises root ef ed enum) = 0) ∧
    ((gather_asset_paths_e raises root ef ed = Except.error () ∨
        (∃ A, gather_asset_paths_e raises root ef ed = Except.ok A ∧
          gather_metafile_paths_e raises root ed = Except.error ())) →
      exit_code (main_run raises root ef ed enum) = 1) := by
  constructor
  · intro hr hv he
    obtain ⟨evs, hevs⟩ := main_run_ok raises root ef ed enum hr hv he
    rw [hevs]
    rfl
  · rintro (ha | ⟨A, hA, hm⟩)
    · unfold main_run
      rw [ha]
      rfl
    · unfold main_run
      rw [hA, hm]
      rfl

theorem exit_code_spec_witness :
    exit_code (main_run (fun _ => false)
      (FSTree.dir "r" [FSTree.file "a.txt"]) ∅ ∅ (fun _ => [])) = 0 ∧
    exit_code (main_run (fun _ => true)
      (FSTree.dir "r" [FSTree.file "a.txt"]) ∅ ∅ (fun _ => [])) = 1 := by
  have hv : ValidForest (FSTree.dir "r" [FSTree.file "a.txt"]).children := by
    refine ValidForest.mk ?_ ?_
    · intro c hc
      rcases List.mem_cons.mp hc with h1 | hc2
      · subst h1
        decide
      · exact absurd hc2 (List.not_mem_nil c)
    · intro c hc
      rcases List.mem_cons.mp hc with h1 | hc2
      · subst h1
        exact ValidForest.mk (fun c hc => absurd hc (List.not_mem_nil c))
          (fun c hc => absurd hc (List.not_mem_nil c))
      · exact absurd hc2 (List.not_mem_nil c)
  constructor
  · exact (exit_code_spec (fun _ => false) (FSTree.dir "r" [FSTree.file "a.txt"]) ∅ ∅
      (fun _ => [])).1 (fun q => rfl) hv (fun S p hp => absurd hp (List.not_mem_nil p))
  · apply (exit_code_spec (fun _ => true) (FSTree.dir "r" [FSTree.file "a.txt"]) ∅ ∅
      (fun _ => [])).2
    left
    unfold gather_asset_paths_e find_elems_e
    rw [find_elems_rec_e]
    rfl

/-- C10: a file named exactly `".meta"` has `pathlib` suffix `""`, so it is
never a metafile-set entry; when it is a reachable non-excluded entry it is
an asset-set entry, and `is_missing_metafile` probes for its companion
`".meta.meta"`. -/
theorem dot_meta_file_is_asset (root : FSTree) (ef ed : Finset String)
    (dirs : List String) (M : Finset PyPath) :
    (∀ p, p ∈ gather_metafile_paths root ed → p.name ≠ ".meta")
    ∧ (AssetEntry ef ed root.children ⟨dirs, ".meta"⟩ →
        (⟨dirs, ".meta"⟩ : PyPath) ∈ gather_asset_paths root ef ed)
    ∧ is_missing_metafile ⟨dirs, ".meta"⟩ M
        = some (decide ((⟨dirs, ".meta.meta"⟩ : PyPath) ∉ M)) := by
  refine ⟨?_, ?_, ?_⟩
  · intro p hp heq
    have hs := collected_meta_suffix (mem_gather_metafile_paths.mp hp)
    rw [heq] at hs
    rw [show pySuffix (".meta") = "" from by decide] at hs
    exact absurd hs (by decide)
  · intro h
    exact mem_gather_asset_iff_assetEntry.mpr h
  · have h := @is_missing_metafile_eval ⟨dirs, ".meta"⟩ M
      (show (".meta" : String) ≠ "" by decide)
      (show sepChar ∉ (".meta" : String).data by decide)
    rw [show ((".meta" : String) ++ ".meta") = ".meta.meta" from by decide] at h
    exact h

theorem dot_meta_file_is_asset_witness :
    ("a.meta" : String) ≠ ".meta" ∧
    (⟨[], ".meta"⟩ : PyPath) ∈ gather_asset_paths
      (FSTree.dir "r" [FSTree.file "a.meta", FSTree.file ".meta"]) ∅ ∅ ∧
    is_missing_metafile ⟨[], ".meta"⟩ (∅ : Finset PyPath) = some true := by
  have hthm := dot_meta_file_is_asset
    (FSTree.dir "r" [FSTree.file "a.meta", FSTree.file ".meta"]) ∅ ∅ [] ∅
  refine ⟨?_, ?_, ?_⟩
  · exact hthm.1 ⟨[], "a.meta"⟩
      (mem_gather_metafile_paths.mpr
        (@Collected.here (meta_is_excluded ∅) is_not_metafile []
          (FSTree.dir "r" [FSTree.file "a.meta", FSTree.file ".meta"]) (FSTree.file "a.meta")
          (List.Mem.head _) (by decide) rfl))
  · exact hthm.2.1
      (@AssetEntry.here ∅ ∅ [FSTree.file "a.meta", FSTree.file ".meta"] (FSTree.file ".meta")
        (List.Mem.tail _ (List.Mem.head _)) (by decide) (by decide))
  · rw [hthm.2.2]
    decide

end VerifyMetafiles
